import Mathlib

/-!
Shallow embedding of the Playfair cipher implementation in src/src/main.rs
(repository martian58/playfair), together with proofs and refutations of the
specification claims.  Rust machine characters are modelled by Lean Char
(both are Unicode scalar values); fallible operations (the fatal lookup in
find_position, out-of-range indexing) are modelled with Option.
-/

namespace Playfair

/-- Encryption or decryption mode (Rust enum CipherMode). -/
inductive CipherMode
  | Encrypt
  | Decrypt
deriving DecidableEq

/-- Rust char::is_ascii_alphabetic: the character is in A..Z or a..z. -/
def isAsciiAlpha (c : Char) : Bool :=
  decide ((65 ≤ c.toNat ∧ c.toNat ≤ 90) ∨ (97 ≤ c.toNat ∧ c.toNat ≤ 122))

/-- Rust char::to_ascii_uppercase: subtract 32 from a..z, otherwise identity. -/
def toUp (c : Char) : Char :=
  if 97 ≤ c.toNat ∧ c.toNat ≤ 122 then Char.ofNat (c.toNat - 32) else c

/-- The per-character normalisation in generate_playfair_table, line 29 of
main.rs: `if c == 'J' { 'I' } else { c.to_ascii_uppercase() }`.  Note the
comparison with uppercase J happens before uppercasing, so a lowercase j is
not mapped to I. -/
def normChar (c : Char) : Char :=
  if c = 'J' then 'I' else toUp c

/-- The Rust range 'A'..='Z' chained after the key characters. -/
def alphabet : List Char :=
  ['A','B','C','D','E','F','G','H','I','J','K','L','M','N',
   'O','P','Q','R','S','T','U','V','W','X','Y','Z']

/-- The flat sequence of characters placed into the table by the loop of
generate_playfair_table (lines 27-39): each input character is normalised,
and kept when it is alphabetic and its letter has not been seen before.
The seen-bit array of the Rust code is modelled by membership in the list
of already placed characters, which records exactly the same letters. -/
def placeChars : List Char → List Char → List Char
  | [], _ => []
  | c :: cs, placed =>
    if isAsciiAlpha (normChar c) = true ∧ normChar c ∉ placed then
      normChar c :: placeChars cs (normChar c :: placed)
    else
      placeChars cs placed

/-- Grouping of the placed characters into rows: the Rust code pushes a row
into the table exactly when it reaches five characters, and a final
incomplete row is never pushed. -/
def chunks5 : List Char → List (List Char)
  | a :: b :: c :: d :: e :: rest => [a, b, c, d, e] :: chunks5 rest
  | _ => []

/-- Rust generate_playfair_table (lines 19-41). -/
def generate_playfair_table (key : String) : List (List Char) :=
  chunks5 (placeChars (key.data ++ alphabet) [])

/-- Index of the first occurrence of a character in a row
(Rust Iterator::position). -/
def rowPos : List Char → Char → Option Nat
  | [], _ => none
  | x :: xs, c => if x = c then some 0 else (rowPos xs c).map (· + 1)

/-- Rust find_position (lines 53-60).  The fatal branch reached when the
character occurs in no row is modelled by none. -/
def find_position (t : List (List Char)) (c : Char) : Option (Nat × Nat) :=
  match t with
  | [] => none
  | row :: rest =>
    match rowPos row c with
    | some j => some (0, j)
    | none => (find_position rest c).map (fun p => (p.1 + 1, p.2))

/-- Safe table indexing table[r][c]; out-of-range access (a Rust index
panic) is modelled by none. -/
def tget (t : List (List Char)) (r c : Nat) : Option Char :=
  match t[r]? with
  | some row => row[c]?
  | none => none

/-- One digraph substitution of playfair_cipher (lines 97-133): look up both
positions, then apply the same-row, same-column or rectangle rule of the
given mode. -/
def step (t : List (List Char)) (mode : CipherMode) (a b : Char) :
    Option (Char × Char) :=
  match find_position t a, find_position t b with
  | some (r1, c1), some (r2, c2) =>
    match mode with
    | CipherMode.Encrypt =>
      if r1 = r2 then
        match tget t r1 ((c1 + 1) % 5), tget t r2 ((c2 + 1) % 5) with
        | some x, some y => some (x, y)
        | _, _ => none
      else if c1 = c2 then
        match tget t ((r1 + 1) % 5) c1, tget t ((r2 + 1) % 5) c2 with
        | some x, some y => some (x, y)
        | _, _ => none
      else
        match tget t r1 c2, tget t r2 c1 with
        | some x, some y => some (x, y)
        | _, _ => none
    | CipherMode.Decrypt =>
      if r1 = r2 then
        match tget t r1 ((c1 + 4) % 5), tget t r2 ((c2 + 4) % 5) with
        | some x, some y => some (x, y)
        | _, _ => none
      else if c1 = c2 then
        match tget t ((r1 + 4) % 5) c1, tget t ((r2 + 4) % 5) c2 with
        | some x, some y => some (x, y)
        | _, _ => none
      else
        match tget t r1 c2, tget t r2 c1 with
        | some x, some y => some (x, y)
        | _, _ => none
  | _, _ => none

/-- The chunks(2) loop of playfair_cipher: substitute pair by pair.  A
leftover single character (impossible after padding) would make the Rust
code index chunk[1] out of range, modelled by none. -/
def processPairs (t : List (List Char)) (mode : CipherMode) :
    List Char → Option (List Char)
  | [] => some []
  | [_] => none
  | a :: b :: rest =>
    match step t mode a b, processPairs t mode rest with
    | some (x, y), some tail => some (x :: y :: tail)
    | _, _ => none

/-- Lines 76-80 of playfair_cipher: keep ASCII-alphabetic characters and
uppercase them.  No mapping of J to I happens here. -/
def filterUpper (s : String) : List Char :=
  (s.data.filter (fun c => isAsciiAlpha c)).map toUp

/-- The while loop of lines 83-89: scan in steps of two; when the current
pair consists of two equal characters, insert X after the first one and
continue from the original second character. -/
def insertFillers : List Char → List Char
  | a :: b :: rest =>
    if a = b then a :: 'X' :: insertFillers (b :: rest)
    else a :: b :: insertFillers rest
  | xs => xs

/-- Lines 92-94: append X when the length is odd. -/
def padEven (l : List Char) : List Char :=
  if l.length % 2 = 1 then l ++ ['X'] else l

/-- The full normalisation performed at the start of playfair_cipher. -/
def resolve (s : String) : List Char :=
  padEven (insertFillers (filterUpper s))

/-- Rust playfair_cipher (lines 73-136).  Returns none exactly when the Rust
code panics (character not found in the table, or a leftover odd chunk). -/
def playfair_cipher (text : String) (t : List (List Char)) (mode : CipherMode) :
    Option String :=
  (processPairs t mode (resolve text)).map (fun l => String.mk l)

/-- The 25-letter Playfair alphabet of the specification: A..Z without J. -/
def alpha25 : List Char := alphabet.filter (fun c => c ≠ 'J')

/-- No digraph of the list consists of two equal characters (the list is read
in non-overlapping pairs from the left). -/
def pairsOK : List Char → Bool
  | a :: b :: rest => (a != b) && pairsOK rest
  | _ => true

theorem toNat_ofNat_valid (n : Nat) (h : n.isValidChar) : (Char.ofNat n).toNat = n := by
  unfold Char.ofNat
  rw [dif_pos h]
  rfl

theorem isValidChar_of_lt (n : Nat) (h : n < 55296) : n.isValidChar := Or.inl h

theorem char_eq_of_toNat (c : Char) (n : Nat) (h : c.toNat = n) : c = Char.ofNat n := by
  rw [← h, Char.ofNat_toNat]

theorem ofNat_mem_alphabet (n : Nat) (h1 : 65 ≤ n) (h2 : n ≤ 90) :
    Char.ofNat n ∈ alphabet := by
  interval_cases n <;> decide

theorem mem_alphabet_of_upper (c : Char) (h1 : 65 ≤ c.toNat) (h2 : c.toNat ≤ 90) :
    c ∈ alphabet := by
  rw [← Char.ofNat_toNat c]
  exact ofNat_mem_alphabet _ h1 h2

theorem isAsciiAlpha_iff (c : Char) : isAsciiAlpha c = true ↔
    ((65 ≤ c.toNat ∧ c.toNat ≤ 90) ∨ (97 ≤ c.toNat ∧ c.toNat ≤ 122)) := by
  simp [isAsciiAlpha]

theorem toUp_of_not_lower (c : Char) (h : ¬ (97 ≤ c.toNat ∧ c.toNat ≤ 122)) :
    toUp c = c := by
  unfold toUp
  rw [if_neg h]

theorem toUp_toNat_of_lower (c : Char) (h1 : 97 ≤ c.toNat) (h2 : c.toNat ≤ 122) :
    (toUp c).toNat = c.toNat - 32 := by
  unfold toUp
  rw [if_pos ⟨h1, h2⟩]
  exact toNat_ofNat_valid _ (isValidChar_of_lt _ (by omega))

theorem toUp_upper_of_alpha (c : Char) (h : isAsciiAlpha c = true) :
    65 ≤ (toUp c).toNat ∧ (toUp c).toNat ≤ 90 := by
  rcases (isAsciiAlpha_iff c).1 h with h' | h'
  · rw [toUp_of_not_lower c (by omega)]
    exact h'
  · have := toUp_toNat_of_lower c h'.1 h'.2
    omega

theorem toUp_fix_of_upper (c : Char) (h1 : 65 ≤ c.toNat) (h2 : c.toNat ≤ 90) :
    toUp c = c :=
  toUp_of_not_lower c (by omega)

theorem toUp_eq_J (c : Char) (h : toUp c = 'J') : c = 'j' ∨ c = 'J' := by
  by_cases hl : 97 ≤ c.toNat ∧ c.toNat ≤ 122
  · left
    have h1 := toUp_toNat_of_lower c hl.1 hl.2
    rw [h] at h1
    have h74 : ('J').toNat = 74 := rfl
    have h106 : c.toNat = 106 := by omega
    rw [char_eq_of_toNat c 106 h106]
  · right
    rw [← h, toUp_of_not_lower c hl]

theorem normChar_ne_J (c : Char) (hc : c ≠ 'j') : normChar c ≠ 'J' := by
  unfold normChar
  by_cases h : c = 'J'
  · rw [if_pos h]
    decide
  · rw [if_neg h]
    intro hJ
    rcases toUp_eq_J c hJ with h' | h'
    · exact hc h'
    · exact h h'

theorem normChar_upper (c : Char) (h : isAsciiAlpha (normChar c) = true) :
    65 ≤ (normChar c).toNat ∧ (normChar c).toNat ≤ 90 := by
  unfold normChar at h ⊢
  by_cases hc : c = 'J'
  · rw [if_pos hc]
    exact ⟨by decide, by decide⟩
  · rw [if_neg hc] at h ⊢
    by_cases hl : 97 ≤ c.toNat ∧ c.toNat ≤ 122
    · have := toUp_toNat_of_lower c hl.1 hl.2
      omega
    · rw [toUp_of_not_lower c hl] at h ⊢
      rcases (isAsciiAlpha_iff c).1 h with h' | h'
      · exact h'
      · exact absurd h' hl

theorem mem_alpha25_iff (c : Char) : c ∈ alpha25 ↔ (c ∈ alphabet ∧ c ≠ 'J') := by
  simp [alpha25, List.mem_filter]

theorem upper_mem_alpha25 (c : Char) (h1 : 65 ≤ c.toNat) (h2 : c.toNat ≤ 90)
    (h3 : c ≠ 'J') : c ∈ alpha25 :=
  (mem_alpha25_iff c).2 ⟨mem_alphabet_of_upper c h1 h2, h3⟩

theorem alpha25_props : ∀ c ∈ alpha25,
    isAsciiAlpha c = true ∧ toUp c = c ∧ normChar c = c ∧ c ≠ 'j' := by decide

theorem alpha25_upper : ∀ c ∈ alpha25, 65 ≤ c.toNat ∧ c.toNat ≤ 90 := by decide

theorem alpha25_nodup : alpha25.Nodup := by decide

theorem placeChars_sub : ∀ (cs placed : List Char), ∀ d ∈ placeChars cs placed,
    isAsciiAlpha d = true ∧ ∃ c ∈ cs, normChar c = d := by
  intro cs
  induction cs with
  | nil =>
    intro placed d hd
    simp [placeChars] at hd
  | cons c cs ih =>
    intro placed d hd
    simp only [placeChars] at hd
    split at hd
    · rename_i hcond
      rcases List.mem_cons.1 hd with h | h
      · subst h
        exact ⟨hcond.1, c, List.mem_cons_self c cs, rfl⟩
      · rcases ih _ d h with ⟨ha, c', hc', he⟩
        exact ⟨ha, c', List.mem_cons_of_mem _ hc', he⟩
    · rcases ih _ d hd with ⟨ha, c', hc', he⟩
      exact ⟨ha, c', List.mem_cons_of_mem _ hc', he⟩

theorem placeChars_notin : ∀ (cs placed : List Char) (d : Char),
    d ∈ placeChars cs placed → d ∉ placed := by
  intro cs
  induction cs with
  | nil =>
    intro placed d hd
    simp [placeChars] at hd
  | cons c cs ih =>
    intro placed d hd
    simp only [placeChars] at hd
    split at hd
    · rename_i hcond
      rcases List.mem_cons.1 hd with h | h
      · subst h
        exact hcond.2
      · intro hp
        exact ih _ d h (List.mem_cons_of_mem _ hp)
    · exact ih _ d hd

theorem placeChars_nodup : ∀ (cs placed : List Char), (placeChars cs placed).Nodup := by
  intro cs
  induction cs with
  | nil =>
    intro placed
    simp [placeChars]
  | cons c cs ih =>
    intro placed
    simp only [placeChars]
    split
    · refine List.nodup_cons.2 ⟨?_, ih _⟩
      intro hmem
      exact placeChars_notin cs _ _ hmem (List.mem_cons_self _ _)
    · exact ih _

theorem placeChars_complete : ∀ (cs placed : List Char) (d : Char),
    isAsciiAlpha d = true → (∃ c ∈ cs, normChar c = d) →
    d ∈ placed ∨ d ∈ placeChars cs placed := by
  intro cs
  induction cs with
  | nil =>
    intro placed d _ hw
    rcases hw with ⟨c, hc, _⟩
    simp at hc
  | cons c cs ih =>
    intro placed d ha hw
    rcases hw with ⟨c', hc', he⟩
    simp only [placeChars]
    rcases List.mem_cons.1 hc' with h | h
    · subst h
      by_cases hcond : isAsciiAlpha (normChar c') = true ∧ normChar c' ∉ placed
      · rw [if_pos hcond]
        right
        rw [he]
        exact List.mem_cons_self _ _
      · rw [if_neg hcond]
        rw [he] at hcond
        push_neg at hcond
        left
        exact hcond ha
    · by_cases hcond : isAsciiAlpha (normChar c) = true ∧ normChar c ∉ placed
      · rw [if_pos hcond]
        rcases ih (normChar c :: placed) d ha ⟨c', h, he⟩ with hp | hp
        · rcases List.mem_cons.1 hp with h2 | h2
          · right
            rw [h2]
            exact List.mem_cons_self _ _
          · left
            exact h2
        · right
          exact List.mem_cons_of_mem _ hp
      · rw [if_neg hcond]
        exact ih placed d ha ⟨c', h, he⟩

theorem chunks5_spec : ∀ l : List Char,
    (∀ r ∈ chunks5 l, r.length = 5) ∧
    (chunks5 l).length = l.length / 5 ∧
    ∃ rest, l = (chunks5 l).flatten ++ rest ∧ rest.length = l.length % 5 := by
  intro l
  induction l using chunks5.induct with
  | case1 a b c d e rest ih =>
    obtain ⟨ihrow, ihlen, rs, hrs, hlen⟩ := ih
    refine ⟨?_, ?_, rs, ?_, ?_⟩
    · intro r hr
      rcases List.mem_cons.1 hr with h | h
      · subst h
        rfl
      · exact ihrow r h
    · show (chunks5 rest).length + 1 = (a :: b :: c :: d :: e :: rest).length / 5
      simp only [List.length_cons]
      omega
    · show a :: b :: c :: d :: e :: rest =
        (([a, b, c, d, e] : List Char) :: chunks5 rest).flatten ++ rs
      simp only [List.flatten_cons, List.cons_append, List.nil_append,
        List.append_assoc]
      exact congrArg (fun t => a :: b :: c :: d :: e :: t) hrs
    · simp only [List.length_cons]
      omega
  | case2 t h =>
    have h0 : chunks5 t = [] ∧ t.length < 5 := by
      rcases t with _ | ⟨a, _ | ⟨b, _ | ⟨c, _ | ⟨d, _ | ⟨e, rest⟩⟩⟩⟩⟩
      · exact ⟨rfl, by simp⟩
      · exact ⟨rfl, by simp⟩
      · exact ⟨rfl, by simp⟩
      · exact ⟨rfl, by simp⟩
      · exact ⟨rfl, by simp⟩
      · exact absurd rfl (fun hh => h a b c d e rest hh)
    obtain ⟨h0, hlt⟩ := h0
    rw [h0]
    refine ⟨?_, ?_, ?_⟩
    · intro r hr
      exact absurd hr (List.not_mem_nil r)
    · simp only [List.length_nil]
      omega
    · exact ⟨t, by simp, by omega⟩

/-- Structural well-formedness enjoyed by every generated table: five rows of
five characters, all distinct. -/
def Shape (t : List (List Char)) : Prop :=
  t.length = 5 ∧ (∀ r ∈ t, r.length = 5) ∧ t.flatten.Nodup

/-- Full well-formedness: in addition the entries are exactly the 25 letters
of the Playfair alphabet. -/
def WFTable (t : List (List Char)) : Prop :=
  Shape t ∧ (∀ c ∈ t.flatten, c ∈ alpha25) ∧ (∀ c ∈ alpha25, c ∈ t.flatten)

theorem placed_upper (key : String) :
    ∀ d ∈ placeChars (key.data ++ alphabet) [], 65 ≤ d.toNat ∧ d.toNat ≤ 90 := by
  intro d hd
  rcases placeChars_sub _ _ d hd with ⟨ha, c, _, he⟩
  rw [← he] at ha ⊢
  exact normChar_upper c ha

theorem placed_mem_alphabet (key : String) :
    ∀ d ∈ placeChars (key.data ++ alphabet) [], d ∈ alphabet := by
  intro d hd
  rcases placed_upper key d hd with ⟨h1, h2⟩
  exact mem_alphabet_of_upper d h1 h2

theorem alpha25_sub_placed (key : String) :
    ∀ d ∈ alpha25, d ∈ placeChars (key.data ++ alphabet) [] := by
  intro d hd
  rcases alpha25_props d hd with ⟨ha, _, hn, _⟩
  have hw : d ∈ key.data ++ alphabet :=
    List.mem_append_right _ ((mem_alpha25_iff d).1 hd).1
  rcases placeChars_complete (key.data ++ alphabet) [] d ha ⟨d, hw, hn⟩ with h | h
  · exact absurd h (List.not_mem_nil d)
  · exact h

theorem placed_length_ge (key : String) :
    25 ≤ (placeChars (key.data ++ alphabet) []).length := by
  have h := List.Nodup.subperm alpha25_nodup (alpha25_sub_placed key)
  have := h.length_le
  simpa using this

theorem placed_length_le (key : String) :
    (placeChars (key.data ++ alphabet) []).length ≤ 26 := by
  have h := List.Nodup.subperm (placeChars_nodup (key.data ++ alphabet) [])
    (placed_mem_alphabet key)
  have := h.length_le
  simpa using this

theorem gen_shape (key : String) : Shape (generate_playfair_table key) := by
  have hge := placed_length_ge key
  have hle := placed_length_le key
  obtain ⟨hrow, hlen, rs, hrs, hrl⟩ :=
    chunks5_spec (placeChars (key.data ++ alphabet) [])
  refine ⟨?_, hrow, ?_⟩
  · show (chunks5 (placeChars (key.data ++ alphabet) [])).length = 5
    omega
  · have hsub : (chunks5 (placeChars (key.data ++ alphabet) [])).flatten.Sublist
        (placeChars (key.data ++ alphabet) []) := by
      conv_rhs => rw [hrs]
      exact List.sublist_append_left _ _
    exact List.Nodup.sublist hsub (placeChars_nodup _ _)

theorem placed_sub_alpha25 (key : String) (hk : 'j' ∉ key.data) :
    ∀ d ∈ placeChars (key.data ++ alphabet) [], d ∈ alpha25 := by
  intro d hd
  rcases placed_upper key d hd with ⟨h1, h2⟩
  rcases placeChars_sub _ _ d hd with ⟨_, c, hc, he⟩
  have hcj : c ≠ 'j' := by
    intro hcc
    subst hcc
    rcases List.mem_append.1 hc with h | h
    · exact hk h
    · exact absurd h (by decide)
  rw [← he]
  exact upper_mem_alpha25 _ (by rw [he]; exact h1) (by rw [he]; exact h2)
    (normChar_ne_J c hcj)

theorem placed_length_eq (key : String) (hk : 'j' ∉ key.data) :
    (placeChars (key.data ++ alphabet) []).length = 25 := by
  have hge := placed_length_ge key
  have h := List.Nodup.subperm (placeChars_nodup (key.data ++ alphabet) [])
    (placed_sub_alpha25 key hk)
  have hle := h.length_le
  simp only [show alpha25.length = 25 from rfl] at hle
  omega

theorem gen_wf (key : String) (hk : 'j' ∉ key.data) :
    WFTable (generate_playfair_table key) := by
  refine ⟨gen_shape key, ?_, ?_⟩
  · intro c hc
    obtain ⟨hrow, hlen, rs, hrs, hrl⟩ :=
      chunks5_spec (placeChars (key.data ++ alphabet) [])
    have hsub : (chunks5 (placeChars (key.data ++ alphabet) [])).flatten.Sublist
        (placeChars (key.data ++ alphabet) []) := by
      conv_rhs => rw [hrs]
      exact List.sublist_append_left _ _
    exact placed_sub_alpha25 key hk c (hsub.subset hc)
  · intro c hc
    obtain ⟨hrow, hlen, rs, hrs, hrl⟩ :=
      chunks5_spec (placeChars (key.data ++ alphabet) [])
    have hlen25 := placed_length_eq key hk
    have hrs0 : rs = [] := by
      apply List.eq_nil_of_length_eq_zero
      omega
    rw [hrs0, List.append_nil] at hrs
    show c ∈ (chunks5 (placeChars (key.data ++ alphabet) [])).flatten
    rw [← hrs]
    exact alpha25_sub_placed key c hc

theorem rowPos_mem : ∀ (row : List Char) (c : Char) (j : Nat),
    rowPos row c = some j → row[j]? = some c := by
  intro row
  induction row with
  | nil =>
    intro c j h
    simp [rowPos] at h
  | cons x xs ih =>
    intro c j h
    simp only [rowPos] at h
    split at h
    · rename_i hx
      have hj : j = 0 := by
        cases h
        rfl
      subst hj
      simp [hx]
    · rcases Option.map_eq_some'.1 h with ⟨j0, hj0, hj⟩
      subst hj
      rw [List.getElem?_cons_succ]
      exact ih c j0 hj0

theorem rowPos_none_of_not_mem : ∀ (row : List Char) (c : Char),
    c ∉ row → rowPos row c = none := by
  intro row
  induction row with
  | nil =>
    intro c _
    rfl
  | cons x xs ih =>
    intro c hc
    have hx : ¬ x = c := by
      intro h
      rw [← h] at hc
      exact hc (List.mem_cons_self x xs)
    simp only [rowPos]
    rw [if_neg hx, ih c (fun h => hc (List.mem_cons_of_mem x h)), Option.map_none']

theorem rowPos_isSome_of_mem : ∀ (row : List Char) (c : Char),
    c ∈ row → ∃ j, rowPos row c = some j := by
  intro row
  induction row with
  | nil =>
    intro c hc
    exact absurd hc (List.not_mem_nil c)
  | cons x xs ih =>
    intro c hc
    simp only [rowPos]
    by_cases hx : x = c
    · exact ⟨0, by rw [if_pos hx]⟩
    · have hmem : c ∈ xs := by
        rcases List.mem_cons.1 hc with h | h
        · exact absurd h.symm hx
        · exact h
      rcases ih c hmem with ⟨j, hj⟩
      exact ⟨j + 1, by rw [if_neg hx, hj, Option.map_some']⟩

theorem rowPos_of_getElem : ∀ (row : List Char) (c : Char) (j : Nat),
    row.Nodup → row[j]? = some c → rowPos row c = some j := by
  intro row
  induction row with
  | nil =>
    intro c j _ h
    simp at h
  | cons x xs ih =>
    intro c j hnd h
    rcases List.nodup_cons.1 hnd with ⟨hx, hxs⟩
    match j with
    | 0 =>
      have hc : x = c := by
        simpa using h
      simp only [rowPos]
      rw [if_pos hc]
    | j + 1 =>
      rw [List.getElem?_cons_succ] at h
      have hne : ¬ x = c := by
        intro he
        exact hx (he ▸ List.getElem?_mem h)
      simp only [rowPos]
      rw [if_neg hne, ih c j hxs h, Option.map_some']

theorem tget_elim (t : List (List Char)) (r j : Nat) (c : Char)
    (h : tget t r j = some c) : ∃ row, t[r]? = some row ∧ row[j]? = some c := by
  unfold tget at h
  split at h
  · rename_i row hr
    exact ⟨row, hr, h⟩
  · exact absurd h (by simp)

theorem tget_mem (t : List (List Char)) (r j : Nat) (c : Char)
    (h : tget t r j = some c) : c ∈ t.flatten := by
  rcases tget_elim t r j c h with ⟨row, hr, hc⟩
  exact List.mem_flatten.2 ⟨row, List.getElem?_mem hr, List.getElem?_mem hc⟩

theorem tget_cons_succ (row : List Char) (rest : List (List Char)) (r j : Nat) :
    tget (row :: rest) (r + 1) j = tget rest r j := by
  unfold tget
  rw [List.getElem?_cons_succ]

theorem tget_cons_zero (row : List Char) (rest : List (List Char)) (j : Nat) :
    tget (row :: rest) 0 j = row[j]? := by
  unfold tget
  rw [List.getElem?_cons_zero]

theorem tget_isSome (t : List (List Char)) (sh : Shape t) (r j : Nat)
    (hr : r < 5) (hj : j < 5) : ∃ x, tget t r j = some x := by
  obtain ⟨hlen, hrow, _⟩ := sh
  have hrl : r < t.length := by omega
  have h1 : t[r]? = some t[r] := List.getElem?_eq_getElem hrl
  have h2 : t[r].length = 5 := hrow _ (List.getElem_mem hrl)
  have hjl : j < t[r].length := by omega
  refine ⟨t[r][j], ?_⟩
  unfold tget
  rw [h1]
  exact List.getElem?_eq_getElem hjl

theorem find_position_spec : ∀ (t : List (List Char)) (c : Char) (r j : Nat),
    find_position t c = some (r, j) → tget t r j = some c := by
  intro t
  induction t with
  | nil =>
    intro c r j h
    simp [find_position] at h
  | cons row rest ih =>
    intro c r j h
    cases hrp : rowPos row c with
    | some j0 =>
      simp only [find_position, hrp, Option.some.injEq, Prod.mk.injEq] at h
      obtain ⟨h1, h2⟩ := h
      subst h1
      subst h2
      rw [tget_cons_zero]
      exact rowPos_mem row c j0 hrp
    | none =>
      simp only [find_position, hrp] at h
      rcases Option.map_eq_some'.1 h with ⟨p, hp, hpe⟩
      obtain ⟨hr1, hr2⟩ : r = p.1 + 1 ∧ j = p.2 := by
        cases hpe
        exact ⟨rfl, rfl⟩
      subst hr1
      subst hr2
      rw [tget_cons_succ]
      exact ih c p.1 p.2 hp

theorem find_position_isSome : ∀ (t : List (List Char)) (c : Char),
    c ∈ t.flatten → ∃ p, find_position t c = some p := by
  intro t
  induction t with
  | nil =>
    intro c hc
    simp at hc
  | cons row rest ih =>
    intro c hc
    cases hrp : rowPos row c with
    | some j =>
      refine ⟨(0, j), ?_⟩
      simp only [find_position, hrp]
    | none =>
      have hcrow : c ∉ row := by
        intro hmem
        rcases rowPos_isSome_of_mem row c hmem with ⟨j, hj⟩
        rw [hj] at hrp
        exact absurd hrp (by simp)
      have hcrest : c ∈ rest.flatten := by
        have hsplit : c ∈ row ++ rest.flatten := by
          rw [← List.flatten_cons]
          exact hc
        rcases List.mem_append.1 hsplit with h | h
        · exact absurd h hcrow
        · exact h
      rcases ih c hcrest with ⟨p, hp⟩
      refine ⟨(p.1 + 1, p.2), ?_⟩
      simp only [find_position, hrp, hp, Option.map_some']

theorem find_position_of_tget : ∀ (t : List (List Char)) (c : Char) (r j : Nat),
    t.flatten.Nodup → tget t r j = some c → find_position t c = some (r, j) := by
  intro t
  induction t with
  | nil =>
    intro c r j _ h
    rcases tget_elim _ _ _ _ h with ⟨row, hr, _⟩
    simp at hr
  | cons row rest ih =>
    intro c r j hnd h
    have hnd2 : (row ++ rest.flatten).Nodup := by
      rw [← List.flatten_cons]
      exact hnd
    rcases List.nodup_append.1 hnd2 with ⟨hndr, hndrest, hdisj⟩
    match r with
    | 0 =>
      rw [tget_cons_zero] at h
      have hrpos := rowPos_of_getElem row c j hndr h
      simp only [find_position, hrpos]
    | r + 1 =>
      rw [tget_cons_succ] at h
      have hcrest : c ∈ rest.flatten := tget_mem rest r j c h
      have hcrow : c ∉ row := fun hmem => hdisj hmem hcrest
      simp only [find_position, rowPos_none_of_not_mem row c hcrow,
        ih c r j hndrest h, Option.map_some']

theorem find_position_lt (t : List (List Char)) (sh : Shape t) (c : Char)
    (r j : Nat) (h : find_position t c = some (r, j)) : r < 5 ∧ j < 5 := by
  obtain ⟨hlen, hrow, _⟩ := sh
  rcases tget_elim t r j c (find_position_spec t c r j h) with ⟨row, hr, hc⟩
  have h1 : r < t.length := (List.getElem?_eq_some.1 hr).1
  have h2 : j < row.length := (List.getElem?_eq_some.1 hc).1
  have h3 : row.length = 5 := hrow row (List.getElem?_mem hr)
  omega

theorem tget_inj : ∀ (t : List (List Char)) (x : Char) (r j r2 j2 : Nat),
    t.flatten.Nodup → tget t r j = some x → tget t r2 j2 = some x →
    r = r2 ∧ j = j2 := by
  intro t
  induction t with
  | nil =>
    intro x r j r2 j2 _ h _
    rcases tget_elim _ _ _ _ h with ⟨row, hr, _⟩
    simp at hr
  | cons row rest ih =>
    intro x r j r2 j2 hnd h h2
    have hnd2 : (row ++ rest.flatten).Nodup := by
      rw [← List.flatten_cons]
      exact hnd
    rcases List.nodup_append.1 hnd2 with ⟨hndr, hndrest, hdisj⟩
    match r, r2 with
    | 0, 0 =>
      rw [tget_cons_zero] at h h2
      refine ⟨rfl, ?_⟩
      exact List.getElem?_inj (List.getElem?_eq_some.1 h).1 hndr (by rw [h, h2])
    | 0, r2 + 1 =>
      rw [tget_cons_zero] at h
      rw [tget_cons_succ] at h2
      exact absurd (tget_mem rest r2 j2 x h2) (hdisj (List.getElem?_mem h))
    | r + 1, 0 =>
      rw [tget_cons_succ] at h
      rw [tget_cons_zero] at h2
      exact absurd (tget_mem rest r j x h) (hdisj (List.getElem?_mem h2))
    | r + 1, r2 + 1 =>
      rw [tget_cons_succ] at h h2
      rcases ih x r j r2 j2 hndrest h h2 with ⟨he1, he2⟩
      exact ⟨by omega, he2⟩

theorem step_isSome (t : List (List Char)) (sh : Shape t) (m : CipherMode)
    (a b : Char) (ha : a ∈ t.flatten) (hb : b ∈ t.flatten) :
    ∃ xy, step t m a b = some xy := by
  rcases find_position_isSome t a ha with ⟨⟨r1, c1⟩, hfa⟩
  rcases find_position_isSome t b hb with ⟨⟨r2, c2⟩, hfb⟩
  obtain ⟨hr1, hc1⟩ := find_position_lt t sh a r1 c1 hfa
  obtain ⟨hr2, hc2⟩ := find_position_lt t sh b r2 c2 hfb
  cases m with
  | Encrypt =>
    unfold step
    simp only [hfa, hfb]
    by_cases hr : r1 = r2
    · rw [if_pos hr]
      rcases tget_isSome t sh r1 ((c1 + 1) % 5) hr1 (by omega) with ⟨x, hx⟩
      rcases tget_isSome t sh r2 ((c2 + 1) % 5) hr2 (by omega) with ⟨y, hy⟩
      simp only [hx, hy]
      exact ⟨(x, y), rfl⟩
    · rw [if_neg hr]
      by_cases hc : c1 = c2
      · rw [if_pos hc]
        rcases tget_isSome t sh ((r1 + 1) % 5) c1 (by omega) hc1 with ⟨x, hx⟩
        rcases tget_isSome t sh ((r2 + 1) % 5) c2 (by omega) hc2 with ⟨y, hy⟩
        simp only [hx, hy]
        exact ⟨(x, y), rfl⟩
      · rw [if_neg hc]
        rcases tget_isSome t sh r1 c2 hr1 hc2 with ⟨x, hx⟩
        rcases tget_isSome t sh r2 c1 hr2 hc1 with ⟨y, hy⟩
        simp only [hx, hy]
        exact ⟨(x, y), rfl⟩
  | Decrypt =>
    unfold step
    simp only [hfa, hfb]
    by_cases hr : r1 = r2
    · rw [if_pos hr]
      rcases tget_isSome t sh r1 ((c1 + 4) % 5) hr1 (by omega) with ⟨x, hx⟩
      rcases tget_isSome t sh r2 ((c2 + 4) % 5) hr2 (by omega) with ⟨y, hy⟩
      simp only [hx, hy]
      exact ⟨(x, y), rfl⟩
    · rw [if_neg hr]
      by_cases hc : c1 = c2
      · rw [if_pos hc]
        rcases tget_isSome t sh ((r1 + 4) % 5) c1 (by omega) hc1 with ⟨x, hx⟩
        rcases tget_isSome t sh ((r2 + 4) % 5) c2 (by omega) hc2 with ⟨y, hy⟩
        simp only [hx, hy]
        exact ⟨(x, y), rfl⟩
      · rw [if_neg hc]
        rcases tget_isSome t sh r1 c2 hr1 hc2 with ⟨x, hx⟩
        rcases tget_isSome t sh r2 c1 hr2 hc1 with ⟨y, hy⟩
        simp only [hx, hy]
        exact ⟨(x, y), rfl⟩

theorem step_encrypt (t : List (List Char)) (sh : Shape t) (a b x y : Char)
    (hab : a ≠ b) (h : step t CipherMode.Encrypt a b = some (x, y)) :
    x ≠ y ∧ x ∈ t.flatten ∧ y ∈ t.flatten ∧
    step t CipherMode.Decrypt x y = some (a, b) := by
  have hnd := sh.2.2
  cases hfa : find_position t a with
  | none =>
    unfold step at h
    simp only [hfa] at h
    exact Option.noConfusion h
  | some p1 =>
  cases hfb : find_position t b with
  | none =>
    unfold step at h
    simp only [hfa, hfb] at h
    exact Option.noConfusion h
  | some p2 =>
  obtain ⟨r1, c1⟩ := p1
  obtain ⟨r2, c2⟩ := p2
  have hta := find_position_spec t a r1 c1 hfa
  have htb := find_position_spec t b r2 c2 hfb
  obtain ⟨hr1, hc1⟩ := find_position_lt t sh a r1 c1 hfa
  obtain ⟨hr2, hc2⟩ := find_position_lt t sh b r2 c2 hfb
  unfold step at h
  simp only [hfa, hfb] at h
  by_cases hr : r1 = r2
  · subst hr
    rw [if_pos rfl] at h
    have hcne : c1 ≠ c2 := by
      intro he
      subst he
      rw [hta] at htb
      exact hab (Option.some.injEq a b ▸ htb)
    cases htx : tget t r1 ((c1 + 1) % 5) with
    | none =>
      simp only [htx] at h
      exact Option.noConfusion h
    | some x0 =>
    cases hty : tget t r1 ((c2 + 1) % 5) with
    | none =>
      simp only [htx, hty] at h
      exact Option.noConfusion h
    | some y0 =>
    simp only [htx, hty, Option.some.injEq, Prod.mk.injEq] at h
    obtain ⟨hx0, hy0⟩ := h
    subst hx0
    subst hy0
    have hxy : x0 ≠ y0 := by
      intro he
      subst he
      obtain ⟨_, hcc⟩ := tget_inj t x0 r1 ((c1 + 1) % 5) r1 ((c2 + 1) % 5) hnd htx hty
      omega
    refine ⟨hxy, tget_mem t _ _ x0 htx, tget_mem t _ _ y0 hty, ?_⟩
    have hfx := find_position_of_tget t x0 r1 ((c1 + 1) % 5) hnd htx
    have hfy := find_position_of_tget t y0 r1 ((c2 + 1) % 5) hnd hty
    unfold step
    simp only [hfx, hfy]
    rw [if_pos trivial]
    have hi1 : ((c1 + 1) % 5 + 4) % 5 = c1 := by omega
    have hi2 : ((c2 + 1) % 5 + 4) % 5 = c2 := by omega
    rw [hi1, hi2]
    simp only [hta, htb]
  · rw [if_neg hr] at h
    by_cases hc : c1 = c2
    · subst hc
      rw [if_pos rfl] at h
      cases htx : tget t ((r1 + 1) % 5) c1 with
      | none =>
        simp only [htx] at h
        exact Option.noConfusion h
      | some x0 =>
      cases hty : tget t ((r2 + 1) % 5) c1 with
      | none =>
        simp only [htx, hty] at h
        exact Option.noConfusion h
      | some y0 =>
      simp only [htx, hty, Option.some.injEq, Prod.mk.injEq] at h
      obtain ⟨hx0, hy0⟩ := h
      subst hx0
      subst hy0
      have hxy : x0 ≠ y0 := by
        intro he
        subst he
        obtain ⟨hrr, _⟩ := tget_inj t x0 ((r1 + 1) % 5) c1 ((r2 + 1) % 5) c1 hnd htx hty
        omega
      refine ⟨hxy, tget_mem t _ _ x0 htx, tget_mem t _ _ y0 hty, ?_⟩
      have hfx := find_position_of_tget t x0 ((r1 + 1) % 5) c1 hnd htx
      have hfy := find_position_of_tget t y0 ((r2 + 1) % 5) c1 hnd hty
      unfold step
      simp only [hfx, hfy]
      have hrowne : ¬ (r1 + 1) % 5 = (r2 + 1) % 5 := by omega
      rw [if_neg hrowne, if_pos trivial]
      have hi1 : ((r1 + 1) % 5 + 4) % 5 = r1 := by omega
      have hi2 : ((r2 + 1) % 5 + 4) % 5 = r2 := by omega
      rw [hi1, hi2]
      simp only [hta, htb]
    · rw [if_neg hc] at h
      cases htx : tget t r1 c2 with
      | none =>
        simp only [htx] at h
        exact Option.noConfusion h
      | some x0 =>
      cases hty : tget t r2 c1 with
      | none =>
        simp only [htx, hty] at h
        exact Option.noConfusion h
      | some y0 =>
      simp only [htx, hty, Option.some.injEq, Prod.mk.injEq] at h
      obtain ⟨hx0, hy0⟩ := h
      subst hx0
      subst hy0
      have hxy : x0 ≠ y0 := by
        intro he
        subst he
        obtain ⟨hrr, _⟩ := tget_inj t x0 r1 c2 r2 c1 hnd htx hty
        exact hr hrr
      refine ⟨hxy, tget_mem t _ _ x0 htx, tget_mem t _ _ y0 hty, ?_⟩
      have hfx := find_position_of_tget t x0 r1 c2 hnd htx
      have hfy := find_position_of_tget t y0 r2 c1 hnd hty
      unfold step
      simp only [hfx, hfy]
      rw [if_neg hr, if_neg (fun he => hc he.symm)]
      simp only [hta, htb]

theorem processPairs_length (t : List (List Char)) (m : CipherMode) :
    ∀ (l v : List Char), processPairs t m l = some v → v.length = l.length := by
  intro l
  induction l using processPairs.induct t m with
  | case1 =>
    intro v h
    simp only [processPairs] at h
    cases h
    rfl
  | case2 head =>
    intro v h
    simp only [processPairs] at h
    exact Option.noConfusion h
  | case3 a b rest x y tail hrest hstep ih =>
    intro v h
    simp only [processPairs, hstep, hrest] at h
    cases h
    have := ih tail hrest
    simp only [List.length_cons]
    omega
  | case4 a b rest hfail ih =>
    intro v h
    cases hs : step t m a b with
    | none =>
      simp only [processPairs, hs] at h
      exact Option.noConfusion h
    | some xy =>
      obtain ⟨x, y⟩ := xy
      cases hr : processPairs t m rest with
      | none =>
        simp only [processPairs, hs, hr] at h
        exact Option.noConfusion h
      | some tail =>
        exact (hfail x y tail hs hr).elim

theorem processPairs_some (t : List (List Char)) (sh : Shape t) (m : CipherMode) :
    ∀ l : List Char, (∀ c ∈ l, c ∈ t.flatten) → l.length % 2 = 0 →
    ∃ v, processPairs t m l = some v := by
  intro l
  induction l using processPairs.induct t m with
  | case1 =>
    exact fun _ _ => ⟨[], rfl⟩
  | case2 head =>
    intro _ hev
    simp at hev
  | case3 a b rest x y tail hrest hstep ih =>
    intro hmem hev
    exact ⟨x :: y :: tail, by simp only [processPairs, hstep, hrest]⟩
  | case4 a b rest hfail ih =>
    intro hmem hev
    rcases step_isSome t sh m a b (hmem a (List.mem_cons_self a _))
      (hmem b (List.mem_cons_of_mem a (List.mem_cons_self b rest))) with ⟨⟨x, y⟩, hs⟩
    have hev2 : rest.length % 2 = 0 := by
      simp only [List.length_cons] at hev
      omega
    rcases ih (fun c hc => hmem c
      (List.mem_cons_of_mem a (List.mem_cons_of_mem b hc))) hev2 with ⟨v, hv⟩
    exact (hfail x y v hs hv).elim

theorem processPairs_encrypt (t : List (List Char)) (sh : Shape t) :
    ∀ l v : List Char, processPairs t CipherMode.Encrypt l = some v →
      pairsOK l = true →
      pairsOK v = true ∧ (∀ c ∈ v, c ∈ t.flatten) ∧
      processPairs t CipherMode.Decrypt v = some l := by
  intro l
  induction l using processPairs.induct t CipherMode.Encrypt with
  | case1 =>
    intro v h _
    simp only [processPairs] at h
    cases h
    exact ⟨rfl, fun c hc => absurd hc (List.not_mem_nil c), rfl⟩
  | case2 head =>
    intro v h _
    simp only [processPairs] at h
    exact Option.noConfusion h
  | case3 a b rest x y tail hrest hstep ih =>
    intro v h hOK
    simp only [processPairs, hstep, hrest] at h
    cases h
    have hOK2 : a ≠ b ∧ pairsOK rest = true := by
      simp only [pairsOK, Bool.and_eq_true, bne_iff_ne] at hOK
      exact hOK
    obtain ⟨hab, hOKrest⟩ := hOK2
    obtain ⟨hxy, hxmem, hymem, hdec⟩ := step_encrypt t sh a b x y hab hstep
    obtain ⟨hOKtail, hmemtail, hdectail⟩ := ih tail hrest hOKrest
    refine ⟨?_, ?_, ?_⟩
    · simp only [pairsOK, Bool.and_eq_true, bne_iff_ne]
      exact ⟨hxy, hOKtail⟩
    · intro c hc
      rcases List.mem_cons.1 hc with h1 | h1
      · rw [h1]
        exact hxmem
      rcases List.mem_cons.1 h1 with h2 | h2
      · rw [h2]
        exact hymem
      · exact hmemtail c h2
    · simp only [processPairs, hdec, hdectail]
  | case4 a b rest hfail ih =>
    intro v h hOK
    cases hs : step t CipherMode.Encrypt a b with
    | none =>
      simp only [processPairs, hs] at h
      exact Option.noConfusion h
    | some xy =>
      obtain ⟨x, y⟩ := xy
      cases hr : processPairs t CipherMode.Encrypt rest with
      | none =>
        simp only [processPairs, hs, hr] at h
        exact Option.noConfusion h
      | some tail =>
        exact (hfail x y tail hs hr).elim

theorem padEven_even (l : List Char) : (padEven l).length % 2 = 0 := by
  unfold padEven
  split
  · rename_i h
    simp only [List.length_append, List.length_cons, List.length_nil]
    omega
  · rename_i h
    omega

theorem padEven_cons2 (x y : Char) (m : List Char) :
    padEven (x :: y :: m) = x :: y :: padEven m := by
  unfold padEven
  simp only [List.length_cons]
  by_cases h : m.length % 2 = 1
  · rw [if_pos (by omega), if_pos h]
    rfl
  · rw [if_neg (by omega), if_neg h]

theorem insertFillers_of_pairsOK : ∀ l : List Char, pairsOK l = true →
    insertFillers l = l := by
  intro l
  induction l using insertFillers.induct with
  | case1 b rest ih =>
    intro hOK
    simp only [pairsOK, Bool.and_eq_true, bne_iff_ne] at hOK
    exact absurd rfl hOK.1
  | case2 a b rest hne ih =>
    intro hOK
    simp only [pairsOK, Bool.and_eq_true, bne_iff_ne] at hOK
    simp only [insertFillers, if_neg hne]
    rw [ih hOK.2]
  | case3 xs hno =>
    intro _
    rcases xs with _ | ⟨a, _ | ⟨b, rest⟩⟩
    · rfl
    · rfl
    · exact (hno a b rest rfl).elim

theorem resolve_pairsOK_of_noX : ∀ l : List Char, 'X' ∉ l →
    pairsOK (padEven (insertFillers l)) = true := by
  intro l
  induction l using insertFillers.induct with
  | case1 b rest ih =>
    intro hX
    simp only [insertFillers]
    rw [if_pos trivial, padEven_cons2]
    simp only [pairsOK, Bool.and_eq_true, bne_iff_ne]
    constructor
    · intro he
      apply hX
      rw [← he]
      exact List.mem_cons_self b (b :: rest)
    · exact ih (fun hm => hX (List.mem_cons_of_mem b hm))
  | case2 a b rest hne ih =>
    intro hX
    simp only [insertFillers, if_neg hne]
    rw [padEven_cons2]
    simp only [pairsOK, Bool.and_eq_true, bne_iff_ne]
    exact ⟨hne, ih (fun hm =>
      hX (List.mem_cons_of_mem a (List.mem_cons_of_mem b hm)))⟩
  | case3 xs hno =>
    intro hX
    rcases xs with _ | ⟨a, _ | ⟨b, rest⟩⟩
    · rfl
    · show pairsOK (padEven (insertFillers [a])) = true
      have h1 : insertFillers [a] = [a] := rfl
      have h2 : padEven [a] = [a, 'X'] := rfl
      rw [h1, h2]
      simp only [pairsOK, Bool.and_eq_true, bne_iff_ne]
      refine ⟨?_, trivial⟩
      intro he
      apply hX
      rw [← he]
      exact List.mem_cons_self a []
    · exact (hno a b rest rfl).elim

theorem map_fix (l : List Char) (f : Char → Char) (h : ∀ a ∈ l, f a = a) :
    l.map f = l := by
  induction l with
  | nil => rfl
  | cons x xs ih =>
    simp only [List.map_cons]
    rw [h x (List.mem_cons_self x xs), ih (fun a ha => h a (List.mem_cons_of_mem x ha))]

theorem filterUpper_mem (s : String) :
    ∀ d ∈ filterUpper s, ∃ c ∈ s.data, isAsciiAlpha c = true ∧ toUp c = d := by
  intro d hd
  unfold filterUpper at hd
  rcases List.mem_map.1 hd with ⟨c, hc, he⟩
  rcases List.mem_filter.1 hc with ⟨hcs, hca⟩
  exact ⟨c, hcs, hca, he⟩

theorem filterUpper_eq_map (s : String) (h : ∀ c ∈ s.data, isAsciiAlpha c = true) :
    filterUpper s = s.data.map toUp := by
  unfold filterUpper
  rw [List.filter_eq_self.2 h]

theorem resolve_fixed (v : List Char)
    (hup : ∀ c ∈ v, isAsciiAlpha c = true ∧ toUp c = c)
    (hOK : pairsOK v = true) (hev : v.length % 2 = 0) :
    resolve (String.mk v) = v := by
  unfold resolve
  have h1 : filterUpper (String.mk v) = v := by
    unfold filterUpper
    have hd : (String.mk v).data = v := rfl
    rw [hd, List.filter_eq_self.2 (fun a ha => (hup a ha).1)]
    exact map_fix v toUp (fun a ha => (hup a ha).2)
  rw [h1, insertFillers_of_pairsOK v hOK]
  unfold padEven
  rw [if_neg (by omega)]

theorem gen_flatten_upper (key : String) :
    ∀ c ∈ (generate_playfair_table key).flatten,
      isAsciiAlpha c = true ∧ toUp c = c := by
  intro c hc
  obtain ⟨hrow, hlen, rs, hrs, hrl⟩ :=
    chunks5_spec (placeChars (key.data ++ alphabet) [])
  have hsub : (chunks5 (placeChars (key.data ++ alphabet) [])).flatten.Sublist
      (placeChars (key.data ++ alphabet) []) := by
    conv_rhs => rw [hrs]
    exact List.sublist_append_left _ _
  have hmem : c ∈ placeChars (key.data ++ alphabet) [] := hsub.subset hc
  obtain ⟨h1, h2⟩ := placed_upper key c hmem
  exact ⟨(isAsciiAlpha_iff c).2 (Or.inl ⟨h1, h2⟩), toUp_fix_of_upper c h1 h2⟩

theorem map_toUp_mem_flatten (key text : String) (hk : 'j' ∉ key.data)
    (ht : ∀ c ∈ text.data, isAsciiAlpha c = true ∧ toUp c ≠ 'J') :
    ∀ d ∈ text.data.map toUp, d ∈ (generate_playfair_table key).flatten := by
  intro d hd
  rcases List.mem_map.1 hd with ⟨c, hc, he⟩
  obtain ⟨ha, hj⟩ := ht c hc
  obtain ⟨h1, h2⟩ := toUp_upper_of_alpha c ha
  have hd25 : d ∈ alpha25 := upper_mem_alpha25 d (he ▸ h1) (he ▸ h2) (he ▸ hj)
  exact (gen_wf key hk).2.2 d hd25

/-- Claim C1 (status: code bug).  The claim says the table never contains J,
for every key including lowercase j keys.  The code checks c == 'J' before
uppercasing, so the key "j" places a literal J in the table and the letter Z
is pushed out of the 5x5 grid. -/
theorem C1_lowercase_j_key_bug :
    generate_playfair_table "j" =
      [['J', 'A', 'B', 'C', 'D'], ['E', 'F', 'G', 'H', 'I'],
       ['K', 'L', 'M', 'N', 'O'], ['P', 'Q', 'R', 'S', 'T'],
       ['U', 'V', 'W', 'X', 'Y']] ∧
    'J' ∈ (generate_playfair_table "j").flatten ∧
    'Z' ∉ (generate_playfair_table "j").flatten := by
  decide

/-- Claim C2 (status: code bug).  The claim says the fatal branch of
find_position is never reached for any text.  The text normaliser never maps
J to I, so the letter J survives filtering, is absent from the table built
from key "KEYWORD", and the lookup hits the fatal branch (modelled none). -/
theorem C2_text_J_reaches_fatal_branch :
    find_position (generate_playfair_table "KEYWORD") 'J' = none ∧
    playfair_cipher "J" (generate_playfair_table "KEYWORD")
      CipherMode.Encrypt = none := by
  decide

/-- Claim C3, counterexample.  The plaintext "JA" is alphabetic-only, of even
length and has no repeated digraph letter, yet the round trip fails because
encryption already hits the fatal lookup on the letter J. -/
theorem C3_counterexample :
    (∀ c ∈ "JA".data, isAsciiAlpha c = true) ∧
    "JA".data.length % 2 = 0 ∧
    pairsOK ("JA".data.map toUp) = true ∧
    (playfair_cipher "JA" (generate_playfair_table "KEYWORD")
        CipherMode.Encrypt).bind
      (fun e => playfair_cipher e (generate_playfair_table "KEYWORD")
        CipherMode.Decrypt) ≠
      some (String.mk ("JA".data.map toUp)) := by
  decide

/-- Claim C3 as amended: for every key without a lowercase j and every
alphabetic plaintext without the letter J, of even length and with no equal
letters inside a digraph, decrypting the encryption returns the uppercased
plaintext. -/
theorem C3_roundtrip (key text : String) (hk : 'j' ∉ key.data)
    (ht : ∀ c ∈ text.data, isAsciiAlpha c = true ∧ toUp c ≠ 'J')
    (hev : text.data.length % 2 = 0)
    (hOK : pairsOK (text.data.map toUp) = true) :
    ∃ enc, playfair_cipher text (generate_playfair_table key)
        CipherMode.Encrypt = some enc ∧
      playfair_cipher enc (generate_playfair_table key) CipherMode.Decrypt =
        some (String.mk (text.data.map toUp)) := by
  have hsh := gen_shape key
  have hres : resolve text = text.data.map toUp := by
    unfold resolve
    rw [filterUpper_eq_map text (fun c hc => (ht c hc).1),
      insertFillers_of_pairsOK _ hOK]
    unfold padEven
    rw [if_neg (by rw [List.length_map]; omega)]
  have hmem := map_toUp_mem_flatten key text hk ht
  have heven : (text.data.map toUp).length % 2 = 0 := by
    rw [List.length_map]
    exact hev
  obtain ⟨v, hv⟩ := processPairs_some (generate_playfair_table key) hsh
    CipherMode.Encrypt (text.data.map toUp) hmem heven
  obtain ⟨hOKv, hmemv, hdec⟩ := processPairs_encrypt
    (generate_playfair_table key) hsh (text.data.map toUp) v hv hOK
  have hvlen : v.length = (text.data.map toUp).length :=
    processPairs_length (generate_playfair_table key) CipherMode.Encrypt _ v hv
  refine ⟨String.mk v, ?_, ?_⟩
  · unfold playfair_cipher
    rw [hres, hv, Option.map_some']
  · unfold playfair_cipher
    have hres2 : resolve (String.mk v) = v :=
      resolve_fixed v (fun c hc => gen_flatten_upper key c (hmemv c hc)) hOKv
        (by omega)
    rw [hres2, hdec, Option.map_some']

/-- Witness for C3_roundtrip at key KEYWORD and plaintext HI. -/
theorem C3_roundtrip_witness :
    ∃ enc, playfair_cipher "HI" (generate_playfair_table "KEYWORD")
        CipherMode.Encrypt = some enc ∧
      playfair_cipher enc (generate_playfair_table "KEYWORD")
        CipherMode.Decrypt = some (String.mk ("HI".data.map toUp)) :=
  C3_roundtrip "KEYWORD" "HI" (by decide) (by decide) (by decide) (by decide)

/-- Claim C4, counterexample.  For the key "j" the generated table does not
contain the letter Z, so find_position is not total on the 25-letter
alphabet for that table. -/
theorem C4_counterexample :
    'Z' ∈ alpha25 ∧
    find_position (generate_playfair_table "j") 'Z' = none := by
  decide

/-- Claim C4 as amended: for every key without a lowercase j, find_position
restricted to the 25 letters is a bijection onto the 25 grid positions:
every letter gets a position inside the grid, distinct letters get distinct
positions, and every position is hit by some letter. -/
theorem C4_bijection (key : String) (hk : 'j' ∉ key.data) :
    (∀ c ∈ alpha25, ∃ p : Nat × Nat,
      find_position (generate_playfair_table key) c = some p ∧
      p.1 < 5 ∧ p.2 < 5) ∧
    (∀ a ∈ alpha25, ∀ b ∈ alpha25,
      find_position (generate_playfair_table key) a =
        find_position (generate_playfair_table key) b → a = b) ∧
    (∀ r j : Nat, r < 5 → j < 5 → ∃ c ∈ alpha25,
      find_position (generate_playfair_table key) c = some (r, j)) := by
  have hwf := gen_wf key hk
  have hsh := gen_shape key
  have hnd := hsh.2.2
  refine ⟨?_, ?_, ?_⟩
  · intro c hc
    rcases find_position_isSome _ c (hwf.2.2 c hc) with ⟨⟨r, j⟩, hp⟩
    obtain ⟨h1, h2⟩ := find_position_lt _ hsh c r j hp
    exact ⟨(r, j), hp, h1, h2⟩
  · intro a ha b hb he
    rcases find_position_isSome _ a (hwf.2.2 a ha) with ⟨⟨r, j⟩, hpa⟩
    have hpb : find_position (generate_playfair_table key) b = some (r, j) := by
      rw [← he]
      exact hpa
    have hta := find_position_spec _ a r j hpa
    have htb := find_position_spec _ b r j hpb
    rw [hta] at htb
    exact Option.some.injEq a b ▸ htb
  · intro r j hr hj
    rcases tget_isSome _ hsh r j hr hj with ⟨c, hc⟩
    refine ⟨c, hwf.2.1 c (tget_mem _ r j c hc), ?_⟩
    exact find_position_of_tget _ c r j hnd hc

/-- Witness for C4_bijection at key KEYWORD. -/
theorem C4_bijection_witness :
    (∀ c ∈ alpha25, ∃ p : Nat × Nat,
      find_position (generate_playfair_table "KEYWORD") c = some p ∧
      p.1 < 5 ∧ p.2 < 5) ∧
    (∀ a ∈ alpha25, ∀ b ∈ alpha25,
      find_position (generate_playfair_table "KEYWORD") a =
        find_position (generate_playfair_table "KEYWORD") b → a = b) ∧
    (∀ r j : Nat, r < 5 → j < 5 → ∃ c ∈ alpha25,
      find_position (generate_playfair_table "KEYWORD") c = some (r, j)) :=
  C4_bijection "KEYWORD" (by decide)

/-- Claim C5 (confirmed): whenever playfair_cipher returns a string, its
length is even and equals the length of the normalised input. -/
theorem C5_output_length (text : String) (t : List (List Char))
    (m : CipherMode) (s : String)
    (h : playfair_cipher text t m = some s) :
    s.length = (resolve text).length ∧ s.length % 2 = 0 := by
  unfold playfair_cipher at h
  cases hp : processPairs t m (resolve text) with
  | none =>
    rw [hp] at h
    exact Option.noConfusion h
  | some v =>
    rw [hp, Option.map_some'] at h
    have hs : s = String.mk v := by
      cases h
      rfl
    subst hs
    have h1 : (String.mk v).length = v.length := rfl
    have h2 := processPairs_length t m (resolve text) v hp
    have h3 : (resolve text).length % 2 = 0 := padEven_even _
    rw [h1, h2]
    exact ⟨rfl, h3⟩

/-- Witness for C5_output_length on the concrete HELLO example. -/
theorem C5_output_length_witness :
    ("GYIZSC" : String).length = (resolve "HELLO").length ∧
    ("GYIZSC" : String).length % 2 = 0 :=
  C5_output_length "HELLO" (generate_playfair_table "KEYWORD")
    CipherMode.Encrypt "GYIZSC" (by decide)

/-- Claim C6 (confirmed): the table generated from the key KEYWORD. -/
theorem C6_table_keyword :
    generate_playfair_table "KEYWORD" =
      [['K', 'E', 'Y', 'W', 'O'], ['R', 'D', 'A', 'B', 'C'],
       ['F', 'G', 'H', 'I', 'L'], ['M', 'N', 'P', 'Q', 'S'],
       ['T', 'U', 'V', 'X', 'Z']] := by
  decide

/-- Claim C7 (confirmed): HELLO encrypts to GYIZSC and GYIZSC decrypts to
HELXLO under the KEYWORD table; the filler X persists after decryption. -/
theorem C7_hello_roundtrip :
    playfair_cipher "HELLO" (generate_playfair_table "KEYWORD")
      CipherMode.Encrypt = some "GYIZSC" ∧
    playfair_cipher "GYIZSC" (generate_playfair_table "KEYWORD")
      CipherMode.Decrypt = some "HELXLO" := by
  decide

/-- Claim C8 (confirmed): BALLOON normalises pair by pair to BA LX LO ON and
encrypts to CBIZSCES under the KEYWORD table. -/
theorem C8_balloon :
    resolve "BALLOON" = ['B', 'A', 'L', 'X', 'L', 'O', 'O', 'N'] ∧
    playfair_cipher "BALLOON" (generate_playfair_table "KEYWORD")
      CipherMode.Encrypt = some "CBIZSCES" := by
  decide

/-- Claim C9, counterexample.  The input "X" normalises to the digraph
(X, X): the padding filler equals the final character, so a resolved digraph
with two equal characters does occur. -/
theorem C9_counterexample :
    resolve "X" = ['X', 'X'] ∧ pairsOK (resolve "X") = false := by
  decide

/-- Claim C9 as amended: for every input text containing no letter X
(upper or lower case), no resolved digraph consists of two equal
characters. -/
theorem C9_no_equal_digraphs (text : String)
    (hX : ∀ c ∈ text.data, toUp c ≠ 'X') :
    pairsOK (resolve text) = true := by
  unfold resolve
  apply resolve_pairsOK_of_noX
  intro hmem
  rcases filterUpper_mem text 'X' hmem with ⟨c, hc, _, he⟩
  exact hX c hc he

/-- Witness for C9_no_equal_digraphs on the input HELLO. -/
theorem C9_no_equal_digraphs_witness : pairsOK (resolve "HELLO") = true :=
  C9_no_equal_digraphs "HELLO" (by decide)

/-- Claim C10 (confirmed): on any generated table, an encryption step maps a
digraph of distinct characters to distinct output characters; consequently a
ciphertext produced from plaintext with no equal-letter digraph has no
equal-letter digraph either, and renormalising it inserts no fillers. -/
theorem C10_encrypt_distinct (key text : String) (a b x y : Char) (v : String)
    (hab : a ≠ b)
    (hstep : step (generate_playfair_table key) CipherMode.Encrypt a b =
      some (x, y))
    (henc : playfair_cipher text (generate_playfair_table key)
      CipherMode.Encrypt = some v)
    (hOK : pairsOK (resolve text) = true) :
    x ≠ y ∧ pairsOK v.data = true ∧ resolve v = v.data := by
  have hsh := gen_shape key
  have hxy := (step_encrypt (generate_playfair_table key) hsh a b x y hab hstep).1
  unfold playfair_cipher at henc
  cases hp : processPairs (generate_playfair_table key) CipherMode.Encrypt
      (resolve text) with
  | none =>
    rw [hp] at henc
    exact Option.noConfusion henc
  | some w =>
    rw [hp, Option.map_some'] at henc
    have hv : v = String.mk w := by
      cases henc
      rfl
    subst hv
    obtain ⟨hOKw, hmemw, _⟩ := processPairs_encrypt
      (generate_playfair_table key) hsh (resolve text) w hp hOK
    have hwlen : w.length = (resolve text).length :=
      processPairs_length _ _ _ w hp
    have heq : (String.mk w).data = w := rfl
    refine ⟨hxy, ?_, ?_⟩
    · rw [heq]
      exact hOKw
    · rw [heq]
      exact resolve_fixed w
        (fun c hc => gen_flatten_upper key c (hmemw c hc)) hOKw
        (by rw [hwlen]; exact padEven_even _)

/-- Witness for C10_encrypt_distinct: key KEYWORD, digraph (A, B), plaintext
AB with ciphertext BC. -/
theorem C10_encrypt_distinct_witness :
    ('B' : Char) ≠ 'C' ∧ pairsOK ("BC" : String).data = true ∧
    resolve "BC" = ("BC" : String).data :=
  C10_encrypt_distinct "KEYWORD" "AB" 'A' 'B' 'B' 'C' "BC" (by decide)
    (by decide) (by decide) (by decide)

end Playfair
